import Mathlib

/-!
# Verification of the AI-Chrome-Web-Indexer retrieval core

A shallow embedding of the retrieval subsystem of the repository
(`backend/memory.py`, `backend/perception.py`) together with proofs about
the chunking policy, keyword scoring, hybrid ranking, snippet generation,
the positional index/metadata invariant and the error-handling behaviour.

Strings are modelled as `List Char`; Python floats appearing in scores are
modelled as exact rationals (for the lexical part, which only uses field
arithmetic) and reals (for `exp`); machine behaviour that is external to
the repository (the FAISS index, the embedding HTTP call, `urlparse`) is
modelled as explicit oracle parameters.
-/

namespace WebIdx

/-- Python's whitespace set used by `str.split()` / `str.strip()` / `\s`
(ASCII part, which is all the repository's data uses). -/
def pyIsSpace (c : Char) : Bool :=
  c == ' ' || c == '\t' || c == '\n' || c == '\r' || c == '\x0b' || c == '\x0c'

/-- Helper for `wordsOf`: accumulate the current word (reversed) while
scanning. Models Python `str.split()` (split on whitespace runs, no empty
words). -/
def wordsOfAux : List Char → List Char → List (List Char)
  | acc, [] => if acc.isEmpty then [] else [acc.reverse]
  | acc, c :: rest =>
    if pyIsSpace c then
      (if acc.isEmpty then [] else [acc.reverse]) ++ wordsOfAux [] rest
    else
      wordsOfAux (c :: acc) rest

/-- Python `s.split()` with no separator: words separated by whitespace runs. -/
def wordsOf (cs : List Char) : List (List Char) := wordsOfAux [] cs

/-- Python `s.strip()`: drop leading and trailing whitespace. -/
def pyStrip (cs : List Char) : List Char :=
  ((cs.dropWhile pyIsSpace).reverse.dropWhile pyIsSpace).reverse

/-- Python `term.lower()` on our character lists. -/
def lowerStr (cs : List Char) : List Char := cs.map Char.toLower

/-- `query_terms = [term.lower() for term in query.split() if len(term) > 2]`
(memory.py line 239 and line 270). -/
def queryTerms (query : List Char) : List (List Char) :=
  ((wordsOf query).filter (fun t => 2 < t.length)).map lowerStr

/-- Python's `sub in s` substring test. -/
def hasSub (pat : List Char) : List Char → Bool
  | [] => pat.isEmpty
  | c :: rest => pat.isPrefixOf (c :: rest) || hasSub pat rest

/-- Fuelled scanner for `countOcc`; the fuel is an upper bound on the number
of scanning steps, each of which consumes at least one character. -/
def countOccAux (pat : List Char) : Nat → List Char → Nat
  | 0, _ => 0
  | _, [] => 0
  | fuel + 1, c :: rest =>
    if pat.isPrefixOf (c :: rest) then
      1 + countOccAux pat fuel (rest.drop (pat.length - 1))
    else
      countOccAux pat fuel rest

/-- Python `s.count(sub)`: number of non-overlapping occurrences of `sub`
in `s`, scanning left to right (`len(s)+1` for the empty pattern, as in
Python). -/
def countOcc (pat text : List Char) : Nat :=
  if pat.isEmpty then text.length + 1 else countOccAux pat text.length text

/-- `matches = sum(1 for term in query_terms if term in content_lower)`
(memory.py line 246). -/
def kwMatches (query content : List Char) : Nat :=
  ((queryTerms query).filter (fun t => hasSub t (lowerStr content))).length

/-- `term_freq = sum(content_lower.count(term) for term in query_terms if
term in content_lower)` (memory.py line 249). -/
def kwTermFreq (query content : List Char) : Nat :=
  (((queryTerms query).filter (fun t => hasSub t (lowerStr content))).map
    (fun t => countOcc t (lowerStr content))).sum

/-- `MemoryManager._calculate_keyword_score` (memory.py lines 227-255):
tokenize the query into lowered terms of length > 2; `kwMatches` counts the
terms occurring in the lowered content, `kwTermFreq` sums their
non-overlapping occurrence counts; the result is
`base + min(1/2, term_freq/50) * base` with `base = matches / #terms`. -/
def keywordScore (query content : List Char) : ℚ :=
  if (queryTerms query).isEmpty then 0
  else
    let baseScore : ℚ := (kwMatches query content : ℚ) / ((queryTerms query).length : ℚ)
    let freqBonus : ℚ := min (1 / 2) ((kwTermFreq query content : ℚ) / 50)
    baseScore + freqBonus * baseScore

/-- `vector_score = exp(-distance / 5)` (memory.py line 193). -/
noncomputable def vectorScore (d : ℝ) : ℝ := Real.exp (-d / 5)

/-- `final_score = 0.7 * vector_score + 0.3 * keyword_score`
(memory.py lines 193-199). -/
noncomputable def finalScore (d : ℝ) (query content : List Char) : ℝ :=
  0.7 * vectorScore d + 0.3 * (keywordScore query content : ℝ)

/-- The fraction of the qualifying query terms (length > 2) present in the
candidate's lowered text: the "lexical term overlap" of the spec, equal to
the code's `base_score` (memory.py line 252). -/
def overlapFrac (query content : List Char) : ℚ :=
  if (queryTerms query).isEmpty then 0
  else (kwMatches query content : ℚ) / ((queryTerms query).length : ℚ)

theorem kwMatches_le_terms (query content : List Char) :
    kwMatches query content ≤ (queryTerms query).length :=
  List.length_filter_le _ _

theorem keywordScore_nonneg (query content : List Char) :
    0 ≤ keywordScore query content := by
  rw [keywordScore]
  split
  · exact le_refl 0
  · have hb : (0 : ℚ) ≤ (kwMatches query content : ℚ) / ((queryTerms query).length : ℚ) :=
      div_nonneg (by positivity) (by positivity)
    have hbo : (0 : ℚ) ≤ min (1 / 2) ((kwTermFreq query content : ℚ) / 50) :=
      le_min (by norm_num) (by positivity)
    have := mul_nonneg hbo hb
    dsimp only
    linarith

theorem keywordScore_le_three_halves (query content : List Char) :
    keywordScore query content ≤ 3 / 2 := by
  rw [keywordScore]
  split
  · norm_num
  · rename_i hne
    have hlen : 0 < (queryTerms query).length :=
      List.length_pos.mpr (by simpa using hne)
    have hlenQ : (0 : ℚ) < ((queryTerms query).length : ℚ) := by exact_mod_cast hlen
    have hb1 : (kwMatches query content : ℚ) / ((queryTerms query).length : ℚ) ≤ 1 := by
      rw [div_le_one hlenQ]
      exact_mod_cast kwMatches_le_terms query content
    have hb0 : (0 : ℚ) ≤ (kwMatches query content : ℚ) / ((queryTerms query).length : ℚ) :=
      div_nonneg (by positivity) (by positivity)
    have hbo1 : min (1 / 2) ((kwTermFreq query content : ℚ) / 50) ≤ 1 / 2 :=
      min_le_left _ _
    have hbo0 : (0 : ℚ) ≤ min (1 / 2) ((kwTermFreq query content : ℚ) / 50) :=
      le_min (by norm_num) (by positivity)
    dsimp only
    nlinarith

theorem vectorScore_pos (d : ℝ) : 0 < vectorScore d := Real.exp_pos _

theorem vectorScore_le_one (d : ℝ) (hd : 0 ≤ d) : vectorScore d ≤ 1 := by
  rw [vectorScore]
  calc Real.exp (-d / 5) ≤ Real.exp 0 := by
        apply Real.exp_le_exp.mpr
        have : (0 : ℝ) ≤ d / 5 := by positivity
        linarith [neg_div d 5]
    _ = 1 := Real.exp_zero

/-- C1: the claim asserts the combined score `0.7 * exp(-d/5) + 0.3 *
lexical` always lies in `[0, 1]`; this fails already for the query `"cat"`
against the content `"cat"` at distance `0`, where the lexical score is
`1 + 1/50 = 51/50 > 1` and the combined score is `1.006 > 1`. -/
theorem c1_combined_score_exceeds_one :
    1 < finalScore 0 "cat".toList "cat".toList := by
  have hm : kwMatches "cat".toList "cat".toList = 1 := by decide
  have hf : kwTermFreq "cat".toList "cat".toList = 1 := by decide
  have hl : (queryTerms "cat".toList).length = 1 := by decide
  have he : (queryTerms "cat".toList).isEmpty = false := by decide
  have hk : keywordScore "cat".toList "cat".toList = 51 / 50 := by
    rw [keywordScore, he, hm, hf, hl]
    norm_num [min_def]
  have hv : vectorScore 0 = 1 := by
    rw [vectorScore]
    norm_num
  rw [finalScore, hv, hk]
  norm_num

/-- C1 (amended): for non-negative vector distance the combined score
`0.7 * exp(-d/5) + 0.3 * lexical` lies in the closed interval `[0, 1.15]`
(the lexical score is bounded by `3/2`, not by `1`). -/
theorem c1_combined_score_bounds (d : ℝ) (query content : List Char) (hd : 0 ≤ d) :
    0 ≤ finalScore d query content ∧ finalScore d query content ≤ 1.15 := by
  have hv0 := vectorScore_pos d
  have hv1 := vectorScore_le_one d hd
  have hk0 : (0 : ℝ) ≤ (keywordScore query content : ℝ) := by
    exact_mod_cast keywordScore_nonneg query content
  have hk1 : (keywordScore query content : ℝ) ≤ 3 / 2 := by
    have h := keywordScore_le_three_halves query content
    have h2 : ((keywordScore query content : ℚ) : ℝ) ≤ ((3 / 2 : ℚ) : ℝ) := by
      exact_mod_cast h
    push_cast at h2
    exact h2
  rw [finalScore]
  constructor
  · nlinarith
  · nlinarith

theorem c1_combined_score_bounds_witness :
    (0 : ℝ) ≤ 3 ∧ (0 ≤ finalScore 3 "cat".toList "dog".toList ∧
      finalScore 3 "cat".toList "dog".toList ≤ 1.15) :=
  ⟨by norm_num, c1_combined_score_bounds 3 "cat".toList "dog".toList (by norm_num)⟩

def c8Query : List Char := "aaa bbb ccc ddd".toList

def c8ContentA : List Char := "aaa bbb ccc ddd".toList

def c8ContentB : List Char := List.replicate 75 'a' ++ " bbb ccc".toList

/-- C8: the claim asserts that at identical vector distance a candidate with
strictly higher lexical term overlap scores at least as high; it fails
because the frequency bonus scales differently: `c8ContentA` matches all 4
query terms (overlap 1, keyword score 27/25) while `c8ContentB` matches
only 3 (overlap 3/4) but with 27 total occurrences, earning the capped
bonus and keyword score 9/8 > 27/25, hence a higher combined score. -/
theorem c8_overlap_not_monotone :
    overlapFrac c8Query c8ContentB < overlapFrac c8Query c8ContentA ∧
    finalScore 0 c8Query c8ContentA < finalScore 0 c8Query c8ContentB := by
  have hmA : kwMatches c8Query c8ContentA = 4 := by decide
  have hfA : kwTermFreq c8Query c8ContentA = 4 := by decide
  have hmB : kwMatches c8Query c8ContentB = 3 := by decide
  have hfB : kwTermFreq c8Query c8ContentB = 27 := by decide
  have hl : (queryTerms c8Query).length = 4 := by decide
  have he : (queryTerms c8Query).isEmpty = false := by decide
  have hkA : keywordScore c8Query c8ContentA = 27 / 25 := by
    rw [keywordScore, he, hmA, hfA, hl]
    norm_num [min_def]
  have hkB : keywordScore c8Query c8ContentB = 9 / 8 := by
    rw [keywordScore, he, hmB, hfB, hl]
    norm_num [min_def]
  have hv : vectorScore 0 = 1 := by
    rw [vectorScore]
    norm_num
  constructor
  · rw [overlapFrac, overlapFrac, he, hmA, hmB, hl]
    norm_num
  · rw [finalScore, finalScore, hv, hkA, hkB]
    norm_num

/-- C8 (amended): for two candidates with identical vector distance, the
one with the higher-or-equal full keyword score (`_calculate_keyword_score`,
i.e. overlap fraction scaled by the frequency bonus) receives a combined
score greater than or equal to the other's; the overlap fraction alone
does not determine the order. -/
theorem c8_score_mono_in_keyword (d : ℝ) (query ca cb : List Char)
    (h : keywordScore query cb ≤ keywordScore query ca) :
    finalScore d query cb ≤ finalScore d query ca := by
  rw [finalScore, finalScore]
  have hc : (keywordScore query cb : ℝ) ≤ (keywordScore query ca : ℝ) := by
    exact_mod_cast h
  linarith

theorem c8_score_mono_in_keyword_witness :
    keywordScore "cat".toList "dog".toList ≤ keywordScore "cat".toList "cat".toList ∧
    finalScore 2 "cat".toList "dog".toList ≤ finalScore 2 "cat".toList "cat".toList := by
  have h : keywordScore "cat".toList "dog".toList ≤ keywordScore "cat".toList "cat".toList := by
    have h0 : keywordScore "cat".toList "dog".toList = 0 := by
      have hm : kwMatches "cat".toList "dog".toList = 0 := by decide
      have hf : kwTermFreq "cat".toList "dog".toList = 0 := by decide
      have he : (queryTerms "cat".toList).isEmpty = false := by decide
      rw [keywordScore, he, hm, hf]
      norm_num
    rw [h0]
    exact keywordScore_nonneg _ _
  exact ⟨h, c8_score_mono_in_keyword 2 "cat".toList "cat".toList "dog".toList h⟩

/-- Python `s.find(sub)`: index of the first occurrence, `none` standing
for Python's `-1`. -/
def findSub (pat : List Char) : List Char → Option Nat
  | [] => if pat.isEmpty then some 0 else none
  | c :: rest =>
    if pat.isPrefixOf (c :: rest) then some 0
    else (findSub pat rest).map (· + 1)

/-- First-occurrence positions of the qualifying query terms in the lowered
content (memory.py lines 277-281); terms that do not occur contribute
nothing. -/
def termPositions (query content : List Char) : List Nat :=
  (queryTerms query).filterMap (fun t => findSub t (lowerStr content))

/-- Index of the last space in a character list, if any. -/
def lastSpaceIdx : List Char → Option Nat
  | [] => none
  | c :: rest =>
    match lastSpaceIdx rest with
    | some j => some (j + 1)
    | none => if c == ' ' then some 0 else none

/-- Index of the first space in a character list, if any. -/
def firstSpaceIdx : List Char → Option Nat
  | [] => none
  | c :: rest => if c == ' ' then some 0 else (firstSpaceIdx rest).map (· + 1)

/-- Python `content.rfind(" ", 0, stop)`: largest `i < stop` with
`content[i] = ' '`, `none` for `-1`. -/
def rfindSpace (content : List Char) (stop : Nat) : Option Nat :=
  lastSpaceIdx (content.take stop)

/-- Python `content.find(" ", start)`: smallest `i ≥ start` with
`content[i] = ' '`, `none` for `-1`. -/
def findSpaceFrom (content : List Char) (start : Nat) : Option Nat :=
  (firstSpaceIdx (content.drop start)).map (· + start)

/-- `center = sum(positions) // len(positions)` (memory.py line 287). -/
def snippetCenter (query content : List Char) : Nat :=
  (termPositions query content).sum / (termPositions query content).length

/-- The final snippet start (memory.py lines 290, 294-298):
`max(0, center - max_length//2)`, then moved just past the preceding space
when one exists at a positive index. -/
def snippetStart (query content : List Char) (maxLength : Nat) : Nat :=
  if 0 < snippetCenter query content - maxLength / 2 then
    match rfindSpace content (snippetCenter query content - maxLength / 2) with
    | some i => if 0 < i then i + 1 else snippetCenter query content - maxLength / 2
    | none => snippetCenter query content - maxLength / 2
  else snippetCenter query content - maxLength / 2

/-- The final snippet end (memory.py lines 291, 300-304):
`min(len(content), center + max_length//2)`, then moved to the next space
when one exists at a positive index. -/
def snippetStop (query content : List Char) (maxLength : Nat) : Nat :=
  if min content.length (snippetCenter query content + maxLength / 2) < content.length then
    match findSpaceFrom content
        (min content.length (snippetCenter query content + maxLength / 2)) with
    | some i =>
      if 0 < i then i
      else min content.length (snippetCenter query content + maxLength / 2)
    | none => min content.length (snippetCenter query content + maxLength / 2)
  else min content.length (snippetCenter query content + maxLength / 2)

/-- The `[start, end)` character window used by `_generate_snippet` on the
path where at least one query term occurs in the content. -/
def snippetWindow (query content : List Char) (maxLength : Nat) : Nat × Nat :=
  (snippetStart query content maxLength, snippetStop query content maxLength)

/-- The ellipsis marker `"..."`. -/
def dots : List Char := ['.', '.', '.']

/-- `snippet = content[start:end]` plus the ellipsis markers
(memory.py lines 306-312). -/
def ellipsisWrap (content : List Char) (se : Nat × Nat) : List Char :=
  if se.2 < content.length then
    (if 0 < se.1 then dots ++ (content.take se.2).drop se.1
     else (content.take se.2).drop se.1) ++ dots
  else
    (if 0 < se.1 then dots ++ (content.take se.2).drop se.1
     else (content.take se.2).drop se.1)

/-- `MemoryManager._generate_snippet` (memory.py lines 257-314). -/
def generateSnippet (query content : List Char) (maxLength : Nat) : List Char :=
  if queryTerms query = [] ∨ content = [] then
    (if maxLength < content.length then content.take maxLength ++ dots else content)
  else if termPositions query content = [] then
    (if maxLength < content.length then content.take maxLength ++ dots else content)
  else
    ellipsisWrap content (snippetWindow query content maxLength)

theorem queryTerms_long (query t : List Char) (ht : t ∈ queryTerms query) :
    2 < t.length := by
  rw [queryTerms] at ht
  obtain ⟨s, hs, rfl⟩ := List.mem_map.mp ht
  have hp := (List.mem_filter.mp hs).2
  simp only [decide_eq_true_eq] at hp
  simpa [lowerStr] using hp

theorem findSub_lt_length (pat : List Char) (hp : pat ≠ []) :
    ∀ (l : List Char) (i : Nat), findSub pat l = some i → i < l.length := by
  intro l
  induction l with
  | nil =>
    intro i h
    obtain ⟨c, cs, rfl⟩ := List.exists_cons_of_ne_nil hp
    simp [findSub] at h
  | cons c rest ih =>
    intro i h
    rw [findSub] at h
    split at h
    · cases h
      simp
    · obtain ⟨j, hj, rfl⟩ := Option.map_eq_some'.mp h
      have := ih j hj
      simp only [List.length_cons]
      omega

theorem termPositions_lt (query content : List Char) :
    ∀ p ∈ termPositions query content, p < content.length := by
  intro p hp
  rw [termPositions] at hp
  obtain ⟨t, ht, hfind⟩ := List.mem_filterMap.mp hp
  have hlen := queryTerms_long query t ht
  have hne : t ≠ [] := by
    intro h
    rw [h] at hlen
    simp at hlen
  have := findSub_lt_length t hne (lowerStr content) p hfind
  simpa [lowerStr] using this

theorem snippetCenter_lt_length (query content : List Char)
    (hne : termPositions query content ≠ []) :
    snippetCenter query content < content.length := by
  rw [snippetCenter]
  have hlenpos : 0 < (termPositions query content).length := List.length_pos.mpr hne
  have hL : 0 < content.length := by
    obtain ⟨p, hp⟩ := List.exists_mem_of_ne_nil _ hne
    have := termPositions_lt query content p hp
    omega
  have hbound : ∀ p ∈ termPositions query content, p ≤ content.length - 1 := by
    intro p hp
    have := termPositions_lt query content p hp
    omega
  have hsum : (termPositions query content).sum ≤
      (termPositions query content).length * (content.length - 1) := by
    calc (termPositions query content).sum
        ≤ (termPositions query content).length • (content.length - 1) :=
          List.sum_le_card_nsmul _ _ hbound
      _ = (termPositions query content).length * (content.length - 1) := smul_eq_mul ℕ
  have hdiv : (termPositions query content).sum / (termPositions query content).length ≤
      content.length - 1 := by
    calc (termPositions query content).sum / (termPositions query content).length
        ≤ (termPositions query content).length * (content.length - 1) /
            (termPositions query content).length := Nat.div_le_div_right hsum
      _ = content.length - 1 := Nat.mul_div_cancel_left _ hlenpos
  omega

theorem lastSpaceIdx_lt (l : List Char) (i : Nat) (h : lastSpaceIdx l = some i) :
    i < l.length := by
  induction l generalizing i with
  | nil => simp [lastSpaceIdx] at h
  | cons c rest ih =>
    rw [lastSpaceIdx] at h
    split at h
    · rename_i j hj
      cases h
      have := ih j hj
      simp only [List.length_cons]
      omega
    · split at h
      · cases h
        simp
      · cases h

theorem rfindSpace_lt (content : List Char) (stop i : Nat)
    (h : rfindSpace content stop = some i) : i < stop := by
  rw [rfindSpace] at h
  have := lastSpaceIdx_lt _ _ h
  have hlen : (content.take stop).length ≤ stop := by
    simp [List.length_take]
  omega

theorem findSpaceFrom_ge (content : List Char) (start i : Nat)
    (h : findSpaceFrom content start = some i) : start ≤ i := by
  rw [findSpaceFrom] at h
  obtain ⟨j, hj, rfl⟩ := Option.map_eq_some'.mp h
  omega

/-- C6: the claim asserts every non-empty content strictly shorter than
`max_length` is returned verbatim; it fails for query `"bcd"`, content
`"aaaaa bcd"` (9 chars) and `max_length = 10`: the snippet window starts at
index 1, so the snippet is `"...aaaa bcd"`, not the content. -/
theorem c6_short_content_not_verbatim :
    ("aaaaa bcd".toList).length < 10 ∧ "aaaaa bcd".toList ≠ [] ∧
    generateSnippet "bcd".toList "aaaaa bcd".toList 10 = "...aaaa bcd".toList ∧
    generateSnippet "bcd".toList "aaaaa bcd".toList 10 ≠ "aaaaa bcd".toList := by
  refine ⟨by decide, by decide, by decide, by decide⟩

/-- C6 (amended): for every query and every non-empty content of length at
most `max_length / 2`, `_generate_snippet` returns the content verbatim,
with no ellipsis marker prepended or appended. -/
theorem c6_snippet_verbatim (query content : List Char) (maxLength : Nat)
    (hne : content ≠ []) (hlen : 2 * content.length ≤ maxLength) :
    generateSnippet query content maxLength = content := by
  have hml : ¬ (maxLength < content.length) := by omega
  rw [generateSnippet]
  by_cases h1 : queryTerms query = [] ∨ content = []
  · rw [if_pos h1, if_neg hml]
  · rw [if_neg h1]
    by_cases h2 : termPositions query content = []
    · rw [if_pos h2, if_neg hml]
    · rw [if_neg h2]
      have hcl := snippetCenter_lt_length query content h2
      have hhalf : content.length ≤ maxLength / 2 := by omega
      have hs0 : snippetCenter query content - maxLength / 2 = 0 := by omega
      have he0 : min content.length (snippetCenter query content + maxLength / 2) =
          content.length := by omega
      have hstart : snippetStart query content maxLength = 0 := by
        rw [snippetStart, hs0]
        simp
      have hstop : snippetStop query content maxLength = content.length := by
        rw [snippetStop, he0]
        simp
      rw [snippetWindow, hstart, hstop, ellipsisWrap]
      simp

theorem c6_snippet_verbatim_witness :
    "abc".toList ≠ [] ∧ 2 * ("abc".toList).length ≤ 10 ∧
    generateSnippet "xyzw".toList "abc".toList 10 = "abc".toList :=
  ⟨by decide, by decide,
   c6_snippet_verbatim "xyzw".toList "abc".toList 10 (by decide) (by decide)⟩

/-- C7: the claim asserts that every qualifying query term first occurring
at a position `p` inside `[max_length/2, len - max_length/2]` is contained
in the snippet's character range; with query `"abc xyz"`, content
`"qqabcqqqqxyz"` and `max_length = 4`, the term `"abc"` occurs at `p = 2`
(inside `[2, 10]`), but the window is `[3, 7)`, which does not contain 2:
the window is centered on the average of all term positions, not on each
term's own position. -/
theorem c7_term_can_fall_outside_window :
    "abc".toList ∈ queryTerms "abc xyz".toList ∧
    findSub "abc".toList (lowerStr "qqabcqqqqxyz".toList) = some 2 ∧
    4 / 2 ≤ 2 ∧ 2 + 4 / 2 ≤ ("qqabcqqqqxyz".toList).length ∧
    snippetWindow "abc xyz".toList "qqabcqqqqxyz".toList 4 = (3, 7) ∧
    generateSnippet "abc xyz".toList "qqabcqqqqxyz".toList 4 = "...bcqq...".toList ∧
    ¬ (3 ≤ 2 ∧ 2 < 7) := by
  refine ⟨by decide, by decide, by decide, by decide, by decide, by decide, by decide⟩

/-- C7 (amended): whenever at least one qualifying query term occurs in the
content, `max_length ≥ 2`, and the integer-average `center` of the first
occurrence positions lies within `[max_length/2, len(content) -
max_length/2]`, the snippet window `[start, end)` computed by
`_generate_snippet` contains `center`, and the returned snippet is the
ellipsis-wrapped extract of that window. -/
theorem c7_window_contains_center (query content : List Char) (maxLength : Nat)
    (hterms : termPositions query content ≠ [])
    (hmax : 2 ≤ maxLength)
    (hlo : maxLength / 2 ≤ snippetCenter query content)
    (hhi : snippetCenter query content + maxLength / 2 ≤ content.length) :
    snippetStart query content maxLength ≤ snippetCenter query content ∧
    snippetCenter query content < snippetStop query content maxLength ∧
    generateSnippet query content maxLength =
      ellipsisWrap content (snippetWindow query content maxLength) := by
  have hqt : queryTerms query ≠ [] := by
    intro h
    apply hterms
    rw [termPositions, h]
    rfl
  have hcne : content ≠ [] := by
    intro h
    have hcl := snippetCenter_lt_length query content hterms
    rw [h] at hcl
    simp at hcl
  refine ⟨?_, ?_, ?_⟩
  · rw [snippetStart]
    split
    · split
      · rename_i i hi
        have := rfindSpace_lt content _ i hi
        split
        · omega
        · omega
      · omega
    · omega
  · rw [snippetStop]
    have hmin : min content.length (snippetCenter query content + maxLength / 2) =
        snippetCenter query content + maxLength / 2 := by omega
    rw [hmin]
    have hge1 : 1 ≤ maxLength / 2 := by omega
    split
    · split
      · rename_i i hi
        have := findSpaceFrom_ge content _ i hi
        split
        · omega
        · omega
      · omega
    · omega
  · rw [generateSnippet, if_neg, if_neg hterms]
    intro h
    rcases h with h | h
    · exact hqt h
    · exact hcne h

theorem c7_window_contains_center_witness :
    termPositions "abc".toList "qqqabcqqq".toList ≠ [] ∧
    2 ≤ 4 ∧ 4 / 2 ≤ snippetCenter "abc".toList "qqqabcqqq".toList ∧
    snippetCenter "abc".toList "qqqabcqqq".toList + 4 / 2 ≤
      ("qqqabcqqq".toList).length ∧
    (snippetStart "abc".toList "qqqabcqqq".toList 4 ≤
      snippetCenter "abc".toList "qqqabcqqq".toList ∧
     snippetCenter "abc".toList "qqqabcqqq".toList <
      snippetStop "abc".toList "qqqabcqqq".toList 4 ∧
     generateSnippet "abc".toList "qqqabcqqq".toList 4 =
      ellipsisWrap "qqqabcqqq".toList
        (snippetWindow "abc".toList "qqqabcqqq".toList 4)) :=
  ⟨by decide, by decide, by decide, by decide,
   c7_window_contains_center "abc".toList "qqqabcqqq".toList 4
     (by decide) (by decide) (by decide) (by decide)⟩

/-- Sentence-ending punctuation of the chunker's regex `(?<=[.!?])\s+`. -/
def isSentenceEnd (c : Char) : Bool := c == '.' || c == '!' || c == '?'

/-- Fuelled scanner for `re.split(r'(?<=[.!?])\s+', text)`: a piece ends at
a whitespace run whose preceding character is sentence-ending punctuation;
the whole run is consumed. `acc` holds the current piece reversed; the fuel
(at least the text length) bounds the number of steps. -/
def splitSentencesAux : Nat → List Char → List Char → List (List Char)
  | _, acc, [] => [acc.reverse]
  | 0, acc, cs => [acc.reverse ++ cs]
  | fuel + 1, acc, c :: rest =>
    if pyIsSpace c && (match acc with | p :: _ => isSentenceEnd p | [] => false) then
      acc.reverse :: splitSentencesAux fuel [] (rest.dropWhile pyIsSpace)
    else
      splitSentencesAux fuel (c :: acc) rest

/-- `sentences = re.split(r'(?<=[.!?])\s+', text)` (perception.py line 108). -/
def splitSentences (text : List Char) : List (List Char) :=
  splitSentencesAux text.length [] text

/-- The seed of a freshly opened chunk after a split (perception.py lines
117-120): the trailing `overlap` words of the just-closed chunk — the whole
closed chunk when it has at most `overlap` words, and all words when
`overlap = 0`, since Python's `words[-0:]` is the whole list — joined with
single spaces, followed by a space and the sentence that triggered the
split. -/
def overlapSeed (overlap : Nat) (closed trigger : List Char) : List Char :=
  (if overlap < (wordsOf closed).length then
     List.intercalate [' ']
       (if overlap = 0 then wordsOf closed
        else (wordsOf closed).drop ((wordsOf closed).length - overlap))
   else closed) ++ ' ' :: trigger

/-- The sentence-accumulation loop of `chunk_text` (perception.py lines
110-127), including the final emission of a non-empty chunk. -/
def chunkLoop (maxSize overlap : Nat) : List (List Char) → List Char → List (List Char)
  | [], cur => if cur = [] then [] else [cur]
  | s :: rest, cur =>
    if maxSize < cur.length + s.length ∧ cur ≠ [] then
      cur :: chunkLoop maxSize overlap rest (overlapSeed overlap cur s)
    else
      chunkLoop maxSize overlap rest (cur ++ (if cur = [] then [] else [' ']) ++ s)

/-- `chunk_text(text, max_chunk_size, overlap)` (perception.py lines 92-129). -/
def chunkText (maxSize overlap : Nat) (text : List Char) : List (List Char) :=
  if text = [] then [] else chunkLoop maxSize overlap (splitSentences text) []

theorem chunkLoop_structure (maxSize overlap : Nat) (ss0 : List (List Char)) :
    ∀ (ss : List (List Char)) (cur : List Char),
      (∀ s ∈ ss, s ∈ ss0) →
      (cur.length ≤ maxSize + 1 ∨ cur ∈ ss0 ∨
        ∃ p s, s ∈ ss0 ∧ cur = overlapSeed overlap p s) →
      ∀ c ∈ chunkLoop maxSize overlap ss cur,
        c.length ≤ maxSize + 1 ∨ c ∈ ss0 ∨
          ∃ p s, s ∈ ss0 ∧ c = overlapSeed overlap p s := by
  intro ss
  induction ss with
  | nil =>
    intro cur hsub hcur c hc
    rw [chunkLoop] at hc
    split at hc
    · simp at hc
    · rw [List.mem_singleton] at hc
      exact hc ▸ hcur
  | cons s rest ih =>
    intro cur hsub hcur c hc
    rw [chunkLoop] at hc
    split at hc
    · rcases List.mem_cons.mp hc with rfl | hc'
      · exact hcur
      · exact ih (overlapSeed overlap cur s)
          (fun x hx => hsub x (List.mem_cons_of_mem _ hx))
          (Or.inr (Or.inr ⟨cur, s, hsub s (List.mem_cons_self _ _), rfl⟩)) c hc'
    · rename_i hcond
      apply ih _ (fun x hx => hsub x (List.mem_cons_of_mem _ hx)) _ c hc
      by_cases hemp : cur = []
      · subst hemp
        simp only [if_pos rfl, List.nil_append, List.append_nil]
        exact Or.inr (Or.inl (hsub s (List.mem_cons_self _ _)))
      · have hfit : cur.length + s.length ≤ maxSize := by
          by_contra hbig
          exact hcond ⟨by omega, hemp⟩
        refine Or.inl ?_
        rw [if_neg hemp]
        simp only [List.length_append, List.length_cons, List.length_nil]
        omega

/-- C5: the claim bounds every chunk (except a single oversized sentence)
by `max_chunk_size + overlap` characters plus the overlap allowance; it
fails because `overlap` counts words, not characters: with
`max_chunk_size = 5`, `overlap = 1` and text `"aa. bbbbbbbb. cc."`, the
second emitted chunk `"aa. bbbbbbbb."` spans two sentences and has 13
characters, exceeding `5 + 1 + 1`. -/
theorem c5_chunk_exceeds_bound :
    chunkText 5 1 "aa. bbbbbbbb. cc.".toList =
      ["aa.".toList, "aa. bbbbbbbb.".toList, "bbbbbbbb. cc.".toList] ∧
    ("aa. bbbbbbbb.".toList).length = 13 ∧ 5 + 1 + 1 < 13 ∧
    "aa. bbbbbbbb.".toList ∉ splitSentences "aa. bbbbbbbb. cc.".toList := by
  refine ⟨by decide, by decide, by decide, by decide⟩

/-- C5 (amended): every chunk emitted by `chunk_text` either (a) has length
at most `max_chunk_size + 1` characters (each guarded append adds the
sentence plus one joining space), or (b) is a single sentence of the
sentence split, or (c) is exactly the seed produced at a split: the
trailing `overlap` words of the just-closed chunk (or the whole closed
chunk if it has at most `overlap` words) followed by a space and the
sentence that triggered the split. No bound in characters of the form
`max_chunk_size + overlap` holds, because `overlap` counts words. -/
theorem c5_chunk_structure (maxSize overlap : Nat) (text c : List Char)
    (hc : c ∈ chunkText maxSize overlap text) :
    c.length ≤ maxSize + 1 ∨ c ∈ splitSentences text ∨
      ∃ p s, s ∈ splitSentences text ∧ c = overlapSeed overlap p s := by
  rw [chunkText] at hc
  split at hc
  · simp at hc
  · exact chunkLoop_structure maxSize overlap (splitSentences text) (splitSentences text)
      [] (fun s hs => hs) (Or.inl (by simp)) c hc

theorem c5_chunk_structure_witness :
    "aa. bbbbbbbb.".toList ∈ chunkText 5 1 "aa. bbbbbbbb. cc.".toList ∧
    (("aa. bbbbbbbb.".toList).length ≤ 5 + 1 ∨
     "aa. bbbbbbbb.".toList ∈ splitSentences "aa. bbbbbbbb. cc.".toList ∨
     ∃ p s, s ∈ splitSentences "aa. bbbbbbbb. cc.".toList ∧
       "aa. bbbbbbbb.".toList = overlapSeed 1 p s) :=
  ⟨by decide, c5_chunk_structure 5 1 "aa. bbbbbbbb. cc.".toList
    "aa. bbbbbbbb.".toList (by decide)⟩

/-- Replace each whitespace run with a single space:
`re.sub(r'\s+', ' ', content)` (perception.py line 85). The flag records
whether the previous character was part of a run already replaced. -/
def collapseWsAux : Bool → List Char → List Char
  | _, [] => []
  | inRun, c :: rest =>
    if pyIsSpace c then
      (if inRun then [] else [' ']) ++ collapseWsAux true rest
    else
      c :: collapseWsAux false rest

/-- `re.sub(r'\s+', ' ', content)`. -/
def collapseWs (cs : List Char) : List Char := collapseWsAux false cs

/-- Case-insensitive "starts with" (the pattern is given lowercased). -/
def lowerStartsWith : List Char → List Char → Bool
  | [], _ => true
  | _ :: _, [] => false
  | p :: ps, t :: ts => (p == t.toLower) && lowerStartsWith ps ts

/-- The alternatives of `re.sub(r'(menu|navigation|search|skip to content)',
' ', content, flags=re.IGNORECASE)` (perception.py line 88), in pattern
order. -/
def navWords : List (List Char) :=
  ["menu".toList, "navigation".toList, "search".toList, "skip to content".toList]

/-- Fuelled scanner for the navigation-word substitution: at each position
the first alternative matching case-insensitively is replaced by a single
space and the scan resumes after it. -/
def subNavAux : Nat → List Char → List Char
  | _, [] => []
  | 0, cs => cs
  | fuel + 1, c :: rest =>
    match navWords.find? (fun p => lowerStartsWith p (c :: rest)) with
    | some p => ' ' :: subNavAux fuel (rest.drop (p.length - 1))
    | none => c :: subNavAux fuel rest

/-- `re.sub(r'(menu|navigation|search|skip to content)', ' ', content,
flags=re.IGNORECASE)`. -/
def subNav (cs : List Char) : List Char := subNavAux cs.length cs

/-- `clean_content` (perception.py lines 71-90). -/
def cleanContent (content : List Char) : List Char :=
  if content = [] then [] else pyStrip (subNav (collapseWs content))

/-- `CONFIDENTIAL_DOMAINS` (perception.py lines 18-39). -/
def CONFIDENTIAL_DOMAINS : List (List Char) :=
  ["mail.google.com".toList, "web.whatsapp.com".toList, "drive.google.com".toList,
   "docs.google.com".toList, "sheets.google.com".toList, "calendar.google.com".toList,
   "meet.google.com".toList, "outlook.live.com".toList, "outlook.office.com".toList,
   "web.telegram.org".toList, "app.slack.com".toList, "discord.com".toList,
   "teams.microsoft.com".toList, "banking".toList, "account".toList,
   "signin".toList, "login".toList, "paypal.com".toList, "myaccount".toList,
   "checkout".toList]

/-- `is_confidential_url` (perception.py lines 50-69). `parseUrl` is the
oracle standing for the external `urllib.parse.urlparse`: it yields the
`(netloc, path)` pair, or `none` when parsing raises, in which case the URL
is treated as confidential. -/
def isConfidentialUrl (parseUrl : List Char → Option (List Char × List Char))
    (url : List Char) : Bool :=
  match parseUrl url with
  | none => true
  | some (netloc, path) =>
    CONFIDENTIAL_DOMAINS.any
      (fun d => hasSub d (lowerStr netloc) || hasSub d (lowerStr path))

/-- The result record of the perception step (perception.py lines 41-48). -/
structure PerceptionResult where
  content : List Char
  url : List Char
  title : List Char
  chunks : List (List Char)
  isConfidential : Bool
deriving DecidableEq

/-- `extract_perception` (perception.py lines 131-180); confidential pages
yield an empty result, other pages are cleaned and chunked with the default
parameters `max_chunk_size=1000`, `overlap=200`. -/
def extractPerception (parseUrl : List Char → Option (List Char × List Char))
    (content url title : List Char) : PerceptionResult :=
  if isConfidentialUrl parseUrl url then
    ⟨[], url, title, [], true⟩
  else
    ⟨cleanContent content, url, title, chunkText 1000 200 (cleanContent content), false⟩

/-- C10: for every URL whose lowercased netloc or path contains a keyword
of the confidential-domain list, and for every URL whose parsing raises,
`extract_perception` returns a result with `is_confidential = True`, empty
content and an empty chunk list. -/
theorem c10_confidential_pages_excluded
    (parseUrl : List Char → Option (List Char × List Char))
    (content url title : List Char)
    (h : parseUrl url = none ∨
      ∃ netloc path, parseUrl url = some (netloc, path) ∧
        ∃ d ∈ CONFIDENTIAL_DOMAINS,
          hasSub d (lowerStr netloc) = true ∨ hasSub d (lowerStr path) = true) :
    extractPerception parseUrl content url title = ⟨[], url, title, [], true⟩ := by
  have hconf : isConfidentialUrl parseUrl url = true := by
    rw [isConfidentialUrl]
    rcases h with h | ⟨netloc, path, hp, d, hd, hor⟩
    · rw [h]
    · rw [hp]
      apply List.any_eq_true.mpr
      refine ⟨d, hd, ?_⟩
      rcases hor with h1 | h1 <;> simp [h1]
  rw [extractPerception, if_pos hconf]

def c10ParseUrl : List Char → Option (List Char × List Char) :=
  fun _ => some ("mail.google.com".toList, "/mail/u/0".toList)

theorem c10_confidential_pages_excluded_witness :
    c10ParseUrl "https://mail.google.com/mail/u/0".toList =
      some ("mail.google.com".toList, "/mail/u/0".toList) ∧
    extractPerception c10ParseUrl "hello".toList
        "https://mail.google.com/mail/u/0".toList "Gmail".toList =
      ⟨[], "https://mail.google.com/mail/u/0".toList, "Gmail".toList, [], true⟩ :=
  ⟨rfl,
   c10_confidential_pages_excluded c10ParseUrl "hello".toList
     "https://mail.google.com/mail/u/0".toList "Gmail".toList
     (Or.inr ⟨"mail.google.com".toList, "/mail/u/0".toList, rfl,
       "mail.google.com".toList, by decide, Or.inl (by decide)⟩)⟩

/-- Embedding vectors; their numeric content is irrelevant to the claims
about the index bookkeeping. -/
abbrev Vec := List ℚ

/-- The per-chunk metadata record (memory.py lines 136-143). -/
structure ChunkRecord where
  docId : List Char
  url : List Char
  title : List Char
  content : List Char
  position : Nat
  timestamp : ℚ
deriving DecidableEq

/-- The mutable state of `MemoryManager`: the in-memory FAISS vector list
and the insertion-ordered metadata dict, plus the on-disk copies written by
`save` (`index.bin` / `metadata.json`). -/
structure MMState where
  index : List Vec
  metadata : List (List Char × ChunkRecord)
  diskIndex : List Vec
  diskMetadata : List (List Char × ChunkRecord)
deriving DecidableEq

/-- The state produced by `initialize` when no files exist on disk. -/
def emptyState : MMState := ⟨[], [], [], []⟩

/-- Python dict assignment `d[k] = v` on an insertion-ordered association
list: an existing key keeps its position and is overwritten, a new key is
appended. -/
def dictInsert (k : List Char) (v : ChunkRecord)
    (m : List (List Char × ChunkRecord)) : List (List Char × ChunkRecord) :=
  if m.any (fun p => p.1 == k) then
    m.map (fun p => if p.1 == k then (k, v) else p)
  else m ++ [(k, v)]

/-- Python dict lookup `d[k]`. -/
def dictGet (k : List Char) (m : List (List Char × ChunkRecord)) : Option ChunkRecord :=
  (m.find? (fun p => p.1 == k)).map Prod.snd

/-- `chunk_id = f"{doc_id}_{i}"` (memory.py line 132). -/
def chunkKey (docId : List Char) (i : Nat) : List Char :=
  docId ++ '_' :: (Nat.repr i).toList

/-- The per-chunk loop of `add_document` (memory.py lines 123-143): skip
whitespace-only chunks; get the embedding (`embed` returning `none` models
the `get_embedding` call raising); store the chunk metadata; collect the
embedding. On failure the metadata mutated so far is kept — the Python
exception propagates out of the method after the mutations — and the third
component is `true`. -/
def addChunksLoop (embed : List Char → Option Vec) (docId url title : List Char)
    (ts : ℚ) : List (Nat × List Char) → List (List Char × ChunkRecord) → List Vec →
      List (List Char × ChunkRecord) × List Vec × Bool
  | [], meta, embs => (meta, embs, false)
  | (i, chunk) :: rest, meta, embs =>
    if pyStrip chunk = [] then
      addChunksLoop embed docId url title ts rest meta embs
    else
      match embed chunk with
      | none => (meta, embs, true)
      | some v =>
        addChunksLoop embed docId url title ts rest
          (dictInsert (chunkKey docId i) ⟨docId, url, title, chunk, i, ts⟩ meta)
          (embs ++ [v])

/-- The outcome of `add_document`: `Except.error ()` models the re-raised
exception, `Except.ok none` the `return None` path (no usable chunk),
`Except.ok (some docId)` success. -/
structure AddResult where
  state : MMState
  outcome : Except Unit (Option (List Char))

/-- `MemoryManager.add_document` (memory.py lines 102-161). `docId` stands
for the fresh `uuid.uuid4()` string and `ts` for `time.time()`; the
`content` parameter of the Python method is unused, as in the source. On
success with at least one embedding the vectors are appended to the index
and `save` writes both stores to disk; with no usable chunk the method
returns `None` without saving; an embedding failure propagates after the
partial metadata mutations. -/
def addDocument (embed : List Char → Option Vec) (docId url title docContent : List Char)
    (chunks : List (List Char)) (ts : ℚ) (st : MMState) : AddResult :=
  match addChunksLoop embed docId url title ts chunks.enum st.metadata [] with
  | (meta, _, true) => ⟨{ st with metadata := meta }, Except.error ()⟩
  | (meta, embs, false) =>
    if embs = [] then ⟨{ st with metadata := meta }, Except.ok none⟩
    else
      ⟨{ index := st.index ++ embs, metadata := meta,
         diskIndex := st.index ++ embs, diskMetadata := meta }, Except.ok (some docId)⟩

/-- Resolution of a vector slot the way `search` does (memory.py lines
188-189): take the `j`-th key of the metadata dict in insertion order, then
look that key up in the dict. -/
def resolveSlot (st : MMState) (j : Nat) : Option ChunkRecord :=
  ((st.metadata.map Prod.fst)[j]?).bind (fun k => dictGet k st.metadata)

/-- A search result entry (memory.py lines 204-211). -/
structure SearchHit where
  url : List Char
  title : List Char
  content : List Char
  snippet : List Char
  score : ℝ
  chunkId : List Char

/-- The candidate loop of `search` (memory.py lines 183-212): negative or
out-of-range FAISS slots are skipped; for the others the chunk is resolved
positionally and scored. The result `none` models an `IndexError` raised
when the metadata dict has fewer entries than the vector index; it is
caught by `search`'s broad handler. -/
noncomputable def collectHits (st : MMState) (query : List Char) :
    List (Int × ℝ) → Option (List SearchHit)
  | [] => some []
  | (idx, dist) :: rest =>
    if idx < 0 ∨ (st.index.length : Int) ≤ idx then collectHits st query rest
    else
      match (st.metadata.map Prod.fst)[idx.toNat]? with
      | none => none
      | some k =>
        match dictGet k st.metadata with
        | none => none
        | some cr =>
          (collectHits st query rest).map (fun hits =>
            { url := cr.url, title := cr.title, content := cr.content,
              snippet := generateSnippet query cr.content 200,
              score := 0.7 * Real.exp (-dist / 5) + 0.3 * (keywordScore query cr.content : ℝ),
              chunkId := k } :: hits)

open Classical in
/-- Stable descending insertion by score: the inserted hit goes before the
first existing hit whose score is ≤ its own. -/
noncomputable def insertHitDesc (h : SearchHit) : List SearchHit → List SearchHit
  | [] => [h]
  | x :: xs => if x.score ≤ h.score then h :: x :: xs else x :: insertHitDesc h xs

/-- Stable descending sort by score; Python's `list.sort(key=..., reverse=
True)` (memory.py line 215) is a stable descending sort, which is unique as
a function of the input list, so stable insertion sort models it. -/
noncomputable def sortHitsDesc : List SearchHit → List SearchHit
  | [] => []
  | h :: rest => insertHitDesc h (sortHitsDesc rest)

/-- `MemoryManager.search` (memory.py lines 163-225). `embed` models
`get_embedding` on the query (`none` = the embedding HTTP call raised) and
`faiss` models `self.index.search`, returning `(slot, distance)` pairs for
`retrieve_k = min(top_k * 3, 15)`. The broad `except` makes every failure
path return `[]`. -/
noncomputable def searchDocs (embed : List Char → Option Vec)
    (faiss : Vec → Nat → List (Int × ℝ)) (st : MMState) (query : List Char)
    (topK : Nat) : List SearchHit :=
  match embed query with
  | none => []
  | some qv =>
    match collectHits st query (faiss qv (min (topK * 3) 15)) with
    | none => []
    | some hits => (sortHitsDesc hits).take topK

/-- C4: the claim asserts that an embedding failure during `search` is
propagated as a typed "embedding unavailable" failure; instead the broad
`except` swallows it and `search` returns the empty result list. -/
theorem c4_search_swallows_embedding_failure :
    searchDocs (fun _ => none) (fun _ _ => []) emptyState "query".toList 5 = [] := rfl

/-- C4 (amended): when the embedding call for the query fails, `search`
catches the exception and returns an empty result list — it does not
propagate a typed failure to its caller. -/
theorem c4_search_returns_empty_on_embed_failure (embed : List Char → Option Vec)
    (faiss : Vec → Nat → List (Int × ℝ)) (st : MMState) (query : List Char)
    (topK : Nat) (h : embed query = none) :
    searchDocs embed faiss st query topK = [] := by
  rw [searchDocs, h]

def c4FailEmbed : List Char → Option Vec := fun _ => none

theorem c4_search_returns_empty_witness :
    c4FailEmbed "news".toList = none ∧
    searchDocs c4FailEmbed (fun _ _ => []) emptyState "news".toList 3 = [] :=
  ⟨rfl, c4_search_returns_empty_on_embed_failure c4FailEmbed (fun _ _ => [])
    emptyState "news".toList 3 rfl⟩

theorem addChunksLoop_all_ws (embed : List Char → Option Vec)
    (docId url title : List Char) (ts : ℚ) :
    ∀ (items : List (Nat × List Char)) (meta : List (List Char × ChunkRecord))
      (embs : List Vec), (∀ p ∈ items, pyStrip p.2 = []) →
      addChunksLoop embed docId url title ts items meta embs = (meta, embs, false) := by
  intro items
  induction items with
  | nil => intro meta embs _; rfl
  | cons p rest ih =>
    intro meta embs h
    obtain ⟨i, chunk⟩ := p
    rw [addChunksLoop, if_pos (h (i, chunk) (List.mem_cons_self _ _))]
    exact ih meta embs (fun q hq => h q (List.mem_cons_of_mem _ hq))

/-- C9: a call of `add_document` in which every chunk is empty or
whitespace-only returns `None` and performs no mutation: the vector index,
the metadata store and the on-disk copies are unchanged and no save
happens. -/
theorem c9_all_whitespace_noop (embed : List Char → Option Vec)
    (docId url title docContent : List Char) (chunks : List (List Char)) (ts : ℚ)
    (st : MMState) (h : ∀ c ∈ chunks, pyStrip c = []) :
    addDocument embed docId url title docContent chunks ts st = ⟨st, Except.ok none⟩ := by
  have henum : ∀ p ∈ chunks.enum, pyStrip p.2 = [] := by
    intro p hp
    have hmem : p.2 ∈ chunks.enum.map Prod.snd := List.mem_map_of_mem _ hp
    rw [List.enum_map_snd] at hmem
    exact h p.2 hmem
  rw [addDocument, addChunksLoop_all_ws embed docId url title ts chunks.enum
    st.metadata [] henum]
  rfl

theorem c9_all_whitespace_noop_witness :
    pyStrip " ".toList = [] ∧ pyStrip "".toList = [] ∧ pyStrip "\t\n".toList = [] ∧
    addDocument (fun _ => some [1]) "d".toList "u".toList "t".toList "x".toList
      [" ".toList, "".toList, "\t\n".toList] 0 emptyState = ⟨emptyState, Except.ok none⟩ :=
  ⟨by decide, by decide, by decide,
   c9_all_whitespace_noop (fun _ => some [1]) "d".toList "u".toList "t".toList
     "x".toList [" ".toList, "".toList, "\t\n".toList] 0 emptyState (by decide)⟩

def c3Embed : List Char → Option Vec :=
  fun c => if c = "a".toList then some [1] else none

/-- C3 (code bug): when the embedding provider fails on the second chunk of
`add_document`, the exception propagates (the operation aborts), but the
metadata mutated for the first chunk is kept while the vector index is not
extended — the prior state is not left untouched, and the index/metadata
counts diverge, which the spec calls the system's central invariant. -/
theorem c3_embed_failure_keeps_partial_metadata :
    (addDocument c3Embed "d".toList "u".toList "t".toList "x".toList
      ["a".toList, "b".toList] 0 emptyState).outcome = Except.error () ∧
    (addDocument c3Embed "d".toList "u".toList "t".toList "x".toList
      ["a".toList, "b".toList] 0 emptyState).state.metadata =
      [(chunkKey "d".toList 0,
        ⟨"d".toList, "u".toList, "t".toList, "a".toList, 0, 0⟩)] ∧
    (addDocument c3Embed "d".toList "u".toList "t".toList "x".toList
      ["a".toList, "b".toList] 0 emptyState).state.metadata ≠ emptyState.metadata ∧
    (addDocument c3Embed "d".toList "u".toList "t".toList "x".toList
      ["a".toList, "b".toList] 0 emptyState).state.index = emptyState.index := by
  refine ⟨rfl, by decide, by decide, rfl⟩

/-- One `add_document` call of a run: the fresh uuid4 string, the page
fields, the chunk list and the timestamp. -/
structure DocCall where
  docId : List Char
  url : List Char
  title : List Char
  content : List Char
  chunks : List (List Char)
  ts : ℚ

/-- Run a sequence of `add_document` calls, threading the manager state. -/
def runCalls (embed : List Char → Option Vec) : List DocCall → MMState → MMState
  | [], st => st
  | c :: rest, st =>
    runCalls embed rest
      (addDocument embed c.docId c.url c.title c.content c.chunks c.ts st).state

/-- The metadata entries inserted for the usable (non-whitespace) chunks of
an enumerated chunk list, in order. -/
def entriesOf (docId url title : List Char) (ts : ℚ)
    (items : List (Nat × List Char)) : List (List Char × ChunkRecord) :=
  (items.filter (fun p => pyStrip p.2 ≠ [])).map
    (fun p => (chunkKey docId p.1, ⟨docId, url, title, p.2, p.1, ts⟩))

/-- All metadata entries a successful `add_document` call inserts. -/
def callEntries (c : DocCall) : List (List Char × ChunkRecord) :=
  entriesOf c.docId c.url c.title c.ts c.chunks.enum

theorem dictInsert_fresh (k : List Char) (v : ChunkRecord)
    (m : List (List Char × ChunkRecord)) (h : k ∉ m.map Prod.fst) :
    dictInsert k v m = m ++ [(k, v)] := by
  rw [dictInsert, if_neg]
  intro hany
  obtain ⟨p, hp, he⟩ := List.any_eq_true.mp hany
  have hpk : p.1 = k := by simpa using he
  exact h (hpk ▸ List.mem_map_of_mem Prod.fst hp)

theorem addChunksLoop_success (embedF : List Char → Vec) (docId url title : List Char)
    (ts : ℚ) :
    ∀ (items : List (Nat × List Char)) (meta : List (List Char × ChunkRecord))
      (embs : List Vec),
      (meta.map Prod.fst ++ (entriesOf docId url title ts items).map Prod.fst).Nodup →
      addChunksLoop (fun s => some (embedF s)) docId url title ts items meta embs =
        (meta ++ entriesOf docId url title ts items,
         embs ++ (items.filter (fun p => pyStrip p.2 ≠ [])).map (fun p => embedF p.2),
         false) := by
  intro items
  induction items with
  | nil =>
    intro meta embs _
    simp [addChunksLoop, entriesOf]
  | cons q rest ih =>
    intro meta embs hnd
    obtain ⟨i, chunk⟩ := q
    by_cases hws : pyStrip chunk = []
    · have hfil : ((i, chunk) :: rest).filter (fun p => pyStrip p.2 ≠ []) =
          rest.filter (fun p => pyStrip p.2 ≠ []) := by
        rw [List.filter_cons]
        simp [hws]
      have hent : entriesOf docId url title ts ((i, chunk) :: rest) =
          entriesOf docId url title ts rest := by
        rw [entriesOf, entriesOf, hfil]
      rw [hent] at hnd
      rw [addChunksLoop, if_pos hws, hent, hfil]
      exact ih meta embs hnd
    · have hfil : ((i, chunk) :: rest).filter (fun p => pyStrip p.2 ≠ []) =
          (i, chunk) :: rest.filter (fun p => pyStrip p.2 ≠ []) := by
        rw [List.filter_cons]
        simp [hws]
      have hent : entriesOf docId url title ts ((i, chunk) :: rest) =
          (chunkKey docId i, ⟨docId, url, title, chunk, i, ts⟩) ::
            entriesOf docId url title ts rest := by
        rw [entriesOf, entriesOf, hfil, List.map_cons]
      rw [hent, List.map_cons] at hnd
      have hkey : chunkKey docId i ∉ meta.map Prod.fst := by
        rcases List.nodup_append.mp hnd with ⟨_, _, hdisj⟩
        intro hk
        exact hdisj hk (List.mem_cons_self _ _)
      rw [addChunksLoop, if_neg hws]
      show addChunksLoop (fun s => some (embedF s)) docId url title ts rest
          (dictInsert (chunkKey docId i) ⟨docId, url, title, chunk, i, ts⟩ meta)
          (embs ++ [embedF chunk]) = _
      rw [dictInsert_fresh _ _ _ hkey]
      have hnd' : ((meta ++ [(chunkKey docId i,
          (⟨docId, url, title, chunk, i, ts⟩ : ChunkRecord))]).map Prod.fst ++
          (entriesOf docId url title ts rest).map Prod.fst).Nodup := by
        rw [List.map_append, List.append_assoc]
        simpa using hnd
      rw [ih _ _ hnd', hent, hfil, List.map_cons]
      simp [List.append_assoc]

theorem addDocument_success_state (embedF : List Char → Vec) (c : DocCall)
    (st : MMState)
    (hnd : (st.metadata.map Prod.fst ++ (callEntries c).map Prod.fst).Nodup) :
    (addDocument (fun s => some (embedF s)) c.docId c.url c.title c.content c.chunks
        c.ts st).state.metadata = st.metadata ++ callEntries c ∧
    (addDocument (fun s => some (embedF s)) c.docId c.url c.title c.content c.chunks
        c.ts st).state.index.length = st.index.length + (callEntries c).length := by
  have hloop := addChunksLoop_success embedF c.docId c.url c.title c.ts c.chunks.enum
    st.metadata [] (by rw [callEntries] at hnd; exact hnd)
  rw [addDocument, hloop, List.nil_append]
  dsimp only
  split
  · rename_i hemb
    have hfil : c.chunks.enum.filter (fun p => pyStrip p.2 ≠ []) = [] :=
      List.map_eq_nil_iff.mp hemb
    constructor
    · rfl
    · show st.index.length = st.index.length + (callEntries c).length
      rw [callEntries, entriesOf, hfil]
      rfl
  · constructor
    · rfl
    · show (st.index ++ (c.chunks.enum.filter
          (fun p => pyStrip p.2 ≠ [])).map (fun p => embedF p.2)).length =
        st.index.length + (callEntries c).length
      rw [List.length_append, callEntries, entriesOf, List.length_map, List.length_map]

theorem runCalls_state (embedF : List Char → Vec) :
    ∀ (calls : List DocCall) (st : MMState),
      (st.metadata.map Prod.fst ++ ((calls.map callEntries).flatten).map Prod.fst).Nodup →
      (runCalls (fun s => some (embedF s)) calls st).metadata =
        st.metadata ++ (calls.map callEntries).flatten ∧
      (runCalls (fun s => some (embedF s)) calls st).index.length =
        st.index.length + ((calls.map callEntries).flatten).length := by
  intro calls
  induction calls with
  | nil =>
    intro st _
    simp [runCalls]
  | cons c rest ih =>
    intro st hnd
    rw [List.map_cons, List.flatten_cons, List.map_append] at hnd
    have hnd1 : (st.metadata.map Prod.fst ++ (callEntries c).map Prod.fst).Nodup := by
      have hsub : List.Sublist
          (st.metadata.map Prod.fst ++ (callEntries c).map Prod.fst)
          (st.metadata.map Prod.fst ++ ((callEntries c).map Prod.fst ++
            ((rest.map callEntries).flatten).map Prod.fst)) :=
        List.Sublist.append_left (List.sublist_append_left _ _) _
      exact List.Nodup.sublist hsub hnd
    obtain ⟨hmeta, hlen⟩ := addDocument_success_state embedF c st hnd1
    rw [runCalls]
    have hnd2 : ((addDocument (fun s => some (embedF s)) c.docId c.url c.title
        c.content c.chunks c.ts st).state.metadata.map Prod.fst ++
        ((rest.map callEntries).flatten).map Prod.fst).Nodup := by
      rw [hmeta, List.map_append, List.append_assoc]
      exact hnd
    obtain ⟨ih1, ih2⟩ := ih _ hnd2
    constructor
    · rw [ih1, hmeta, List.map_cons, List.flatten_cons, List.append_assoc]
    · rw [ih2, hlen, List.map_cons, List.flatten_cons, List.length_append]
      omega

theorem find_key_nodup :
    ∀ (m : List (List Char × ChunkRecord)), (m.map Prod.fst).Nodup →
      ∀ (j : Nat) (pr : List Char × ChunkRecord), m[j]? = some pr →
        m.find? (fun p => p.1 == pr.1) = some pr := by
  intro m
  induction m with
  | nil =>
    intro _ j pr h
    simp at h
  | cons a rest ih =>
    intro hnd j pr h
    cases j with
    | zero =>
      rw [List.getElem?_cons_zero] at h
      cases h
      exact List.find?_cons_of_pos _ (by simp)
    | succ j' =>
      rw [List.getElem?_cons_succ] at h
      have hmem : pr ∈ rest := List.getElem?_mem h
      have hane : ¬ ((a.1 == pr.1) = true) := by
        simp only [beq_iff_eq]
        intro heq
        rcases List.nodup_cons.mp hnd with ⟨hnotin, _⟩
        exact hnotin (heq ▸ List.mem_map_of_mem Prod.fst hmem)
      have hstep : List.find? (fun p => p.1 == pr.1) (a :: rest) =
          List.find? (fun p => p.1 == pr.1) rest :=
        List.find?_cons_of_neg _ hane
      rw [hstep]
      exact ih (List.nodup_cons.mp hnd).2 j' pr h

theorem resolveSlot_nodup (st : MMState) (hnd : (st.metadata.map Prod.fst).Nodup)
    (j : Nat) : resolveSlot st j = (st.metadata[j]?).map Prod.snd := by
  rw [resolveSlot]
  cases hj : st.metadata[j]? with
  | none =>
    have hk : (st.metadata.map Prod.fst)[j]? = none := by
      rw [List.getElem?_map, hj]
      rfl
    rw [hk]
    rfl
  | some pr =>
    have hk : (st.metadata.map Prod.fst)[j]? = some pr.1 := by
      rw [List.getElem?_map, hj]
      rfl
    rw [hk]
    show dictGet pr.1 st.metadata = some pr.2
    rw [dictGet, find_key_nodup st.metadata hnd j pr hj]
    rfl

theorem enumFrom_filter_length :
    ∀ (n : Nat) (l : List (List Char)),
      ((List.enumFrom n l).filter (fun p => pyStrip p.2 ≠ [])).length =
        (l.filter (fun ch => pyStrip ch ≠ [])).length := by
  intro n l
  induction l generalizing n with
  | nil => rfl
  | cons a rest ih =>
    rw [List.enumFrom_cons, List.filter_cons, List.filter_cons]
    by_cases h : pyStrip a = []
    · simpa [h] using ih (n + 1)
    · simpa [h] using ih (n + 1)

theorem callEntries_length (c : DocCall) :
    (callEntries c).length = (c.chunks.filter (fun ch => pyStrip ch ≠ [])).length := by
  rw [callEntries, entriesOf, List.length_map]
  show ((List.enumFrom 0 c.chunks).filter (fun p => pyStrip p.2 ≠ [])).length = _
  rw [enumFrom_filter_length]

/-- C2 (amended): after any sequence of successful `add_document` calls
starting from the empty index, with all generated chunk ids distinct (which
the fresh uuid4 document ids guarantee), the vector count equals the
metadata entry count and equals the sum over the calls of the number of
non-whitespace chunks supplied — whitespace-only chunks are skipped, so the
raw chunk counts c_i overcount; the metadata store is exactly the
concatenation of the per-call entries in insertion order, and resolving
slot j the way `search` does (j-th key in insertion order, then dict
lookup) yields exactly the record inserted j-th. -/
theorem c2_positional_invariant (embedF : List Char → Vec) (calls : List DocCall)
    (hnd : (((calls.map callEntries).flatten).map Prod.fst).Nodup) :
    (runCalls (fun s => some (embedF s)) calls emptyState).index.length =
      (runCalls (fun s => some (embedF s)) calls emptyState).metadata.length ∧
    (runCalls (fun s => some (embedF s)) calls emptyState).metadata.length =
      (calls.map (fun c => (c.chunks.filter (fun ch => pyStrip ch ≠ [])).length)).sum ∧
    (runCalls (fun s => some (embedF s)) calls emptyState).metadata =
      (calls.map callEntries).flatten ∧
    ∀ j, resolveSlot (runCalls (fun s => some (embedF s)) calls emptyState) j =
      (((calls.map callEntries).flatten)[j]?).map Prod.snd := by
  have h0 : (emptyState.metadata.map Prod.fst ++
      ((calls.map callEntries).flatten).map Prod.fst).Nodup := by
    simpa [emptyState] using hnd
  obtain ⟨hmeta, hlen⟩ := runCalls_state embedF calls emptyState h0
  have hmeta' : (runCalls (fun s => some (embedF s)) calls emptyState).metadata =
      (calls.map callEntries).flatten := by
    simpa [emptyState] using hmeta
  have hlen' : (runCalls (fun s => some (embedF s)) calls emptyState).index.length =
      ((calls.map callEntries).flatten).length := by
    simpa [emptyState] using hlen
  have hsum : ∀ (cs : List DocCall),
      ((cs.map callEntries).map List.length).sum =
        (cs.map (fun c => (c.chunks.filter (fun ch => pyStrip ch ≠ [])).length)).sum := by
    intro cs
    induction cs with
    | nil => rfl
    | cons c rest ih => simp only [List.map_cons, List.sum_cons, callEntries_length, ih]
  refine ⟨?_, ?_, hmeta', ?_⟩
  · rw [hlen', hmeta']
  · rw [hmeta', List.length_flatten, hsum]
  · intro j
    rw [resolveSlot_nodup _ (by rw [hmeta']; exact hnd) j, hmeta']

def c2Call : DocCall :=
  ⟨"d".toList, "u".toList, "t".toList, "x".toList, ["hi".toList, " ".toList], 0⟩

/-- C2: as stated — with c_i the number of chunks supplied to call i — the
claim fails: a successful call supplying 2 chunks of which one is
whitespace-only stores only 1 vector and 1 metadata entry, so both counts
are 1 while sum(c_i) = 2. -/
theorem c2_supplied_count_mismatch :
    (addDocument (fun _ => some [1]) c2Call.docId c2Call.url c2Call.title
      c2Call.content c2Call.chunks c2Call.ts emptyState).outcome =
      Except.ok (some "d".toList) ∧
    (runCalls (fun _ => some [1]) [c2Call] emptyState).index.length = 1 ∧
    (runCalls (fun _ => some [1]) [c2Call] emptyState).metadata.length = 1 ∧
    ([c2Call].map (fun c => c.chunks.length)).sum = 2 ∧ (1 : Nat) ≠ 2 := by
  refine ⟨rfl, rfl, rfl, rfl, by decide⟩

def c2EmbedF : List Char → Vec := fun _ => [1]

def c2CallA : DocCall :=
  ⟨"d1".toList, "u1".toList, "t1".toList, "x".toList, ["hi".toList, " ".toList], 0⟩

def c2CallB : DocCall :=
  ⟨"d2".toList, "u2".toList, "t2".toList, "y".toList, ["yo".toList], 0⟩

theorem c2_positional_invariant_witness :
    ((([c2CallA, c2CallB].map callEntries).flatten).map Prod.fst).Nodup ∧
    (runCalls (fun s => some (c2EmbedF s)) [c2CallA, c2CallB] emptyState).index.length =
      (runCalls (fun s => some (c2EmbedF s)) [c2CallA, c2CallB]
        emptyState).metadata.length ∧
    resolveSlot (runCalls (fun s => some (c2EmbedF s)) [c2CallA, c2CallB] emptyState) 1 =
      ((([c2CallA, c2CallB].map callEntries).flatten)[1]?).map Prod.snd := by
  have hnd : ((([c2CallA, c2CallB].map callEntries).flatten).map Prod.fst).Nodup := by
    decide
  obtain ⟨h1, _, _, h4⟩ := c2_positional_invariant c2EmbedF [c2CallA, c2CallB] hnd
  exact ⟨hnd, h1, h4 1⟩

end WebIdx
